import Mathlib

/-!
Shallow embedding of the `js-worker-search` core: the inverted index
(`SearchIndex`, from `src/SearchIndex.js` as bundled in
`dist/js-worker-search.js`) and the synchronous search engine
(`SearchUtility`, from `src/util/SearchUtility.js`).

Modelling conventions:
* A JS string is embedded as `List Char` wherever the code manipulates its
  characters (tokens, text, queries); document identifiers are only compared
  for equality and used as object keys, so they are embedded as `String`.
* A JS object used as a map is embedded as an insertion-ordered association
  list with unique keys; `obj[k] = v` on a fresh key appends, on an existing
  key updates in place (preserving insertion order), exactly as JS object
  key enumeration behaves for non-integer-like string keys.
* `String.prototype.trim` is embedded with `Char.isWhitespace`;
  `String.prototype.toLocaleLowerCase` is embedded per character with
  `Char.toLower` (the claims only exercise basic-latin case folding).
* The tokenize pattern (a JS `RegExp` used only as a `String.split`
  delimiter) is embedded as the induced splitting function
  `List Char → List (List Char)`; the default pattern `/\s+/` composed with
  the `.filter(text => text)` step is realised by splitting at every
  whitespace character and discarding empty pieces, which yields the same
  non-empty tokens.
-/

namespace JsWorkerSearch

/-- Document identifier. JS accepts any value and coerces it to a string
when it is used as an object key, so the embedding fixes `Uid := String`. -/
abbrev Uid := String

/-- A token (a JS string viewed as its character sequence). -/
abbrev Token := List Char

/-- The three index modes of `util/constants.INDEX_MODES`. -/
inductive IndexMode where
  | EXACT_WORDS
  | PREFIXES
  | ALL_SUBSTRINGS
deriving DecidableEq

/-- Insertion into the identifier set of a JS object used as a set:
`obj[uid] = uid` leaves the key list unchanged when the key is present and
appends it otherwise. -/
def insertUid (uids : List Uid) (uid : Uid) : List Uid :=
  if uid ∈ uids then uids else uids ++ [uid]

/-- The inverted index: `this.tokenToUidMap`, a JS object mapping each token
to the object holding its identifier set (`SearchIndex` constructor). -/
structure SearchIndex where
  tokenToUidMap : List (Token × List Uid)
deriving DecidableEq

/-- A freshly constructed `SearchIndex` (`this.tokenToUidMap = {}`). -/
def SearchIndex.empty : SearchIndex := ⟨[]⟩

/-- Reading `map[token]` from the association list: the identifier set
stored under a token, `[]` when the token is absent (JS `|| {}`). -/
def findUids : List (Token × List Uid) → Token → List Uid
  | [], _ => []
  | (t, us) :: rest, token => if t = token then us else findUids rest token

/-- The identifier set the index holds for `token`
(`this.tokenToUidMap[token] || {}`). -/
def SearchIndex.lookup (idx : SearchIndex) (token : Token) : List Uid :=
  findUids idx.tokenToUidMap token

/-- Writing `map[token][uid] = uid` (creating `map[token] = {}` first when
absent): update the first entry for `token`, or append a fresh entry. -/
def updateUids : List (Token × List Uid) → Token → Uid → List (Token × List Uid)
  | [], token, uid => [(token, [uid])]
  | (t, us) :: rest, token, uid =>
    if t = token then (t, insertUid us uid) :: rest
    else (t, us) :: updateUids rest token uid

/-- `SearchIndex.indexDocument(token, uid)`: inserts `uid` into the set
associated with `token`, creating the set if absent. -/
def SearchIndex.indexDocument (idx : SearchIndex) (token : Token) (uid : Uid) : SearchIndex :=
  ⟨updateUids idx.tokenToUidMap token uid⟩

/-- `SearchIndex.search(tokens)`: starts from the identifier set of the
first token (`initialized` flag in the source) and, for each subsequent
token, deletes from the running set every uid for which
`currentUidMap[uid]` is falsy. The stored value equals the uid itself, so
the deletion test keeps a uid exactly when it is present in the current
token's set and its string form is truthy (non-empty). An empty token
sequence leaves the running set empty. -/
def SearchIndex.search (idx : SearchIndex) (tokens : List Token) : List Uid :=
  match tokens with
  | [] => []
  | t :: ts =>
    ts.foldl
      (fun uidMap token =>
        uidMap.filter (fun uid => decide (uid ∈ idx.lookup token ∧ uid ≠ "")))
      (idx.lookup t)

/-- Splitting helper: cuts the character list at every character satisfying
`p`, keeping the (possibly empty) pieces, like `String.prototype.split`
with a single-character-class delimiter. -/
def splitAux (p : Char → Bool) : List Char → List Char → List (List Char)
  | [], acc => [acc.reverse]
  | c :: cs, acc =>
    if p c then acc.reverse :: splitAux p cs []
    else splitAux p cs (c :: acc)

/-- Split a character list at every character satisfying `p`. -/
def splitOnPred (p : Char → Bool) (text : List Char) : List (List Char) :=
  splitAux p text []

/-- The default tokenize pattern `/\s+/`, embedded as the splitting function
it induces (after the engine's empty-piece filter both agree). -/
def defaultTokenizePattern : List Char → List (List Char) :=
  splitOnPred Char.isWhitespace

/-- `String.prototype.trim`: drop leading and trailing whitespace. -/
def trimList (text : List Char) : List Char :=
  ((text.dropWhile Char.isWhitespace).reverse.dropWhile Char.isWhitespace).reverse

/-- The search engine state: fields of `SearchUtility` (`_indexMode`,
`_tokenizePattern`, `_caseSensitive`, `_searchIndex`, `_uids`). The uid map
`{ [uid]: boolean }` is embedded as its insertion-ordered key list. -/
structure SearchUtility where
  _indexMode : IndexMode
  _tokenizePattern : List Char → List (List Char)
  _caseSensitive : Bool
  _searchIndex : SearchIndex
  _uids : List Uid

/-- The `SearchUtility` constructor with explicit configuration. -/
def SearchUtility.init (indexMode : IndexMode)
    (tokenizePattern : List Char → List (List Char))
    (caseSensitive : Bool) : SearchUtility :=
  { _indexMode := indexMode
    _tokenizePattern := tokenizePattern
    _caseSensitive := caseSensitive
    _searchIndex := SearchIndex.empty
    _uids := [] }

/-- The `SearchUtility` constructor with all defaults
(`ALL_SUBSTRINGS`, `/\s+/`, case-insensitive). -/
def SearchUtility.mkDefault : SearchUtility :=
  SearchUtility.init IndexMode.ALL_SUBSTRINGS defaultTokenizePattern false

/-- `getIndexMode()`. -/
def SearchUtility.getIndexMode (s : SearchUtility) : IndexMode := s._indexMode

/-- `getTokenizePattern()`. -/
def SearchUtility.getTokenizePattern (s : SearchUtility) : List Char → List (List Char) :=
  s._tokenizePattern

/-- `getCaseSensitive()`. -/
def SearchUtility.getCaseSensitive (s : SearchUtility) : Bool := s._caseSensitive

/-- `_sanitize(string)`: trim, and lowercase unless case-sensitive. -/
def SearchUtility._sanitize (s : SearchUtility) (text : List Char) : List Char :=
  if s._caseSensitive then trimList text
  else (trimList text).map Char.toLower

/-- `_tokenize(text)`: split on the tokenize pattern and remove empty
tokens (`.filter(text => text)`). -/
def SearchUtility._tokenize (s : SearchUtility) (text : List Char) : List (List Char) :=
  (s._tokenizePattern text).filter (fun t => !t.isEmpty)

/-- The non-empty initial segments of a token in increasing length: the
inner loop of `_expandAllSubstringTokens` (grow `substring` by `charAt(j)`
and push after every step) produces exactly these for the suffix it scans,
and the single loop of `_expandPrefixTokens` produces exactly these for the
whole token (`token.substr(0, i + 1)` for each `i`). -/
def initialSegments (token : List Char) : List (List Char) :=
  (List.range token.length).map (fun k => token.take (k + 1))

/-- `_expandAllSubstringTokens(token)`: for every start position `i`, all
pieces `token[i..j]` for `j ≥ i`, in the order the two nested loops push
them. -/
def SearchUtility._expandAllSubstringTokens (token : List Char) : List (List Char) :=
  ((List.range token.length).map (fun i => initialSegments (token.drop i))).flatten

/-- `_expandPrefixTokens(token)`: `token.substr(0, i + 1)` for
`i = 0 .. token.length - 1`. -/
def SearchUtility._expandPrefixTokens (token : List Char) : List (List Char) :=
  initialSegments token

/-- `_expandToken(token)`: dispatch on the configured index mode. -/
def SearchUtility._expandToken (s : SearchUtility) (token : List Char) : List (List Char) :=
  match s._indexMode with
  | IndexMode.EXACT_WORDS => [token]
  | IndexMode.PREFIXES => SearchUtility._expandPrefixTokens token
  | IndexMode.ALL_SUBSTRINGS => SearchUtility._expandAllSubstringTokens token

/-- The field tokens of a text: `this._tokenize(this._sanitize(text))`. -/
def SearchUtility.fieldTokensOf (s : SearchUtility) (text : List Char) : List (List Char) :=
  s._tokenize (s._sanitize text)

/-- Feed a list of expanded tokens for one uid into the inverted index
(the inner `expandedTokens.forEach` of `SearchUtility.indexDocument`). -/
def indexTokens (idx : SearchIndex) (uid : Uid) (tokens : List Token) : SearchIndex :=
  tokens.foldl (fun i t => i.indexDocument t uid) idx

/-- `SearchUtility.indexDocument(uid, text)`: record the uid in `_uids`,
then insert every expanded token of every field token into the inverted
index. (The source returns `this` for chaining; the embedding returns the
updated state.) -/
def SearchUtility.indexDocument (s : SearchUtility) (uid : Uid) (text : List Char) :
    SearchUtility :=
  { s with
    _uids := insertUid s._uids uid
    _searchIndex :=
      (s.fieldTokensOf text).foldl
        (fun idx ft => indexTokens idx uid (s._expandToken ft)) s._searchIndex }

/-- `SearchUtility.search(query)`: a falsy query (the empty string) returns
`Object.keys(this._uids)`; otherwise the sanitized, tokenized query is
delegated to `SearchIndex.search`. (The source wraps the result in
`Promise.resolve`; the computation itself is synchronous.) -/
def SearchUtility.search (s : SearchUtility) (query : List Char) : List Uid :=
  if query = [] then s._uids
  else s._searchIndex.search (s._tokenize (s._sanitize query))

/-- `setIndexMode(indexMode)`: throws once any document has been indexed
(`Object.keys(this._uids).length > 0`), otherwise stores the new mode. -/
def SearchUtility.setIndexMode (s : SearchUtility) (indexMode : IndexMode) :
    Except String SearchUtility :=
  if s._uids.length > 0 then
    Except.error "indexMode cannot be changed once documents have been indexed"
  else
    Except.ok { s with _indexMode := indexMode }

/-- `setTokenizePattern(pattern)`: unguarded configuration update. -/
def SearchUtility.setTokenizePattern (s : SearchUtility)
    (pattern : List Char → List (List Char)) : SearchUtility :=
  { s with _tokenizePattern := pattern }

/-- `setCaseSensitive(caseSensitive)`: unguarded configuration update. -/
def SearchUtility.setCaseSensitive (s : SearchUtility) (caseSensitive : Bool) :
    SearchUtility :=
  { s with _caseSensitive := caseSensitive }

/-- Run a sequence of `indexDocument` calls against an engine state. -/
def runIndex (s : SearchUtility) (docs : List (Uid × List Char)) : SearchUtility :=
  docs.foldl (fun st d => st.indexDocument d.1 d.2) s

/-! Helper lemmas about `insertUid`. -/

theorem mem_insertUid {l : List Uid} {u v : Uid} : u ∈ insertUid l v ↔ u ∈ l ∨ u = v := by
  unfold insertUid
  split
  · next h =>
    constructor
    · exact Or.inl
    · rintro (h1 | rfl)
      · exact h1
      · exact h
  · simp

theorem insertUid_of_mem {l : List Uid} {v : Uid} (h : v ∈ l) : insertUid l v = l := by
  simp [insertUid, h]

theorem self_mem_insertUid (l : List Uid) (v : Uid) : v ∈ insertUid l v :=
  mem_insertUid.mpr (Or.inr rfl)

theorem insertUid_ne_nil (l : List Uid) (v : Uid) : insertUid l v ≠ [] := by
  intro h
  have := self_mem_insertUid l v
  rw [h] at this
  cases this

/-! Helper lemmas about the inverted index. -/

theorem findUids_updateUids (m : List (Token × List Uid)) (token t : Token) (uid : Uid) :
    findUids (updateUids m token uid) t =
      if t = token then insertUid (findUids m token) uid else findUids m t := by
  induction m with
  | nil =>
    by_cases h : t = token
    · subst h; simp [updateUids, findUids, insertUid]
    · simp [updateUids, findUids, h, Ne.symm h]
  | cons hd rest ih =>
    obtain ⟨t₀, us⟩ := hd
    by_cases h0 : t₀ = token
    · subst h0
      by_cases h : t = t₀
      · subst h; simp [updateUids, findUids]
      · simp [updateUids, findUids, h, Ne.symm h]
    · by_cases h : t = t₀
      · subst h
        simp [updateUids, findUids, h0, Ne.symm h0]
      · simp [updateUids, findUids, h0, h, Ne.symm h, ih]

theorem lookup_indexDocument (idx : SearchIndex) (token t : Token) (uid : Uid) :
    (idx.indexDocument token uid).lookup t =
      if t = token then insertUid (idx.lookup token) uid else idx.lookup t :=
  findUids_updateUids idx.tokenToUidMap token t uid

theorem lookup_indexDocument_mono {idx : SearchIndex} {token t : Token} {uid u : Uid}
    (h : u ∈ idx.lookup t) : u ∈ (idx.indexDocument token uid).lookup t := by
  rw [lookup_indexDocument]
  by_cases ht : t = token
  · subst ht
    simp only [if_pos rfl]
    exact mem_insertUid.mpr (Or.inl h)
  · simpa [ht] using h

theorem self_mem_lookup_indexDocument (idx : SearchIndex) (token : Token) (uid : Uid) :
    uid ∈ (idx.indexDocument token uid).lookup token := by
  rw [lookup_indexDocument]
  simp only [if_pos rfl]
  exact self_mem_insertUid _ _

theorem lookup_indexTokens_mono {idx : SearchIndex} {uid u : Uid} {t : Token}
    (tokens : List Token) (h : u ∈ idx.lookup t) :
    u ∈ (indexTokens idx uid tokens).lookup t := by
  induction tokens generalizing idx with
  | nil => exact h
  | cons hd tl ih => exact ih (lookup_indexDocument_mono h)

theorem mem_lookup_indexTokens {idx : SearchIndex} {uid : Uid} {t : Token}
    {tokens : List Token} (h : t ∈ tokens) :
    uid ∈ (indexTokens idx uid tokens).lookup t := by
  induction tokens generalizing idx with
  | nil => cases h
  | cons hd tl ih =>
    rcases List.mem_cons.mp h with rfl | hmem
    · exact lookup_indexTokens_mono tl (self_mem_lookup_indexDocument idx t uid)
    · exact ih hmem

/-! Helper lemmas about `SearchIndex.search`. -/

theorem mem_foldl_filter {α β : Type} (p : β → α → Bool) (xs : List β) (init : List α)
    (u : α) :
    (u ∈ xs.foldl (fun acc x => acc.filter (p x)) init) ↔
      u ∈ init ∧ ∀ x ∈ xs, p x u = true := by
  induction xs generalizing init with
  | nil => simp
  | cons hd tl ih =>
    simp only [List.foldl_cons, ih, List.mem_filter, List.mem_cons]
    constructor
    · rintro ⟨⟨h1, h2⟩, h3⟩
      exact ⟨h1, fun x hx => by rcases hx with rfl | hx; exact h2; exact h3 x hx⟩
    · rintro ⟨h1, h2⟩
      exact ⟨⟨h1, h2 hd (Or.inl rfl)⟩, fun x hx => h2 x (Or.inr hx)⟩

theorem mem_search_cons {idx : SearchIndex} {t : Token} {ts : List Token} {u : Uid} :
    u ∈ idx.search (t :: ts) ↔
      u ∈ idx.lookup t ∧ ∀ tk ∈ ts, u ∈ idx.lookup tk ∧ u ≠ "" := by
  show u ∈ ts.foldl _ (idx.lookup t) ↔ _
  rw [mem_foldl_filter]
  constructor
  · rintro ⟨h1, h2⟩
    exact ⟨h1, fun tk htk => by simpa using h2 tk htk⟩
  · rintro ⟨h1, h2⟩
    exact ⟨h1, fun tk htk => by simpa using h2 tk htk⟩

theorem mem_search_iff {idx : SearchIndex} {tokens : List Token} {u : Uid} :
    u ∈ idx.search tokens ↔
      tokens ≠ [] ∧ (∀ tk ∈ tokens, u ∈ idx.lookup tk) ∧
        (2 ≤ tokens.length → u ≠ "") := by
  cases tokens with
  | nil => simp [SearchIndex.search]
  | cons t ts =>
    rw [mem_search_cons]
    constructor
    · rintro ⟨h1, h2⟩
      refine ⟨List.cons_ne_nil t ts, ?_, ?_⟩
      · intro tk htk
        rcases List.mem_cons.mp htk with rfl | htk
        · exact h1
        · exact (h2 tk htk).1
      · intro hlen
        have : ts ≠ [] := by
          intro h
          subst h
          simp at hlen
        obtain ⟨tk, htk⟩ := List.exists_mem_of_ne_nil ts this
        exact (h2 tk htk).2
    · rintro ⟨_, h2, h3⟩
      refine ⟨h2 t (List.mem_cons_self t ts), fun tk htk => ⟨h2 tk (List.mem_cons_of_mem t htk), ?_⟩⟩
      apply h3
      have : ts.length ≥ 1 := List.length_pos.mpr (List.ne_nil_of_mem htk)
      simp only [List.length_cons]
      omega

theorem search_mono {idx idx' : SearchIndex}
    (hmono : ∀ t u, u ∈ idx.lookup t → u ∈ idx'.lookup t)
    {tokens : List Token} {u : Uid} (h : u ∈ idx.search tokens) :
    u ∈ idx'.search tokens := by
  rw [mem_search_iff] at h ⊢
  exact ⟨h.1, fun tk htk => hmono tk u (h.2.1 tk htk), h.2.2⟩

/-! Helper lemmas about splitting and trimming. -/

theorem splitAux_chars (p : Char → Bool) (l : List Char) (acc : List Char)
    (hacc : ∀ c ∈ acc, p c = false) :
    ∀ t ∈ splitAux p l acc, ∀ c ∈ t, p c = false := by
  induction l generalizing acc with
  | nil =>
    intro t ht c hc
    simp only [splitAux, List.mem_singleton] at ht
    subst ht
    exact hacc c (List.mem_reverse.mp hc)
  | cons hd tl ih =>
    intro t ht c hc
    by_cases hp : p hd
    · simp only [splitAux, if_pos hp, List.mem_cons] at ht
      rcases ht with rfl | ht
      · exact hacc c (List.mem_reverse.mp hc)
      · exact ih [] (by simp) t ht c hc
    · simp only [splitAux, if_neg hp] at ht
      refine ih (hd :: acc) ?_ t ht c hc
      intro c' hc'
      rcases List.mem_cons.mp hc' with rfl | hc'
      · exact Bool.eq_false_iff.mpr hp
      · exact hacc c' hc'

theorem splitOnPred_chars (p : Char → Bool) (l : List Char) :
    ∀ t ∈ splitOnPred p l, ∀ c ∈ t, p c = false :=
  splitAux_chars p l [] (by simp)

theorem splitAux_chars_mem (p : Char → Bool) (l : List Char) (acc : List Char) :
    ∀ t ∈ splitAux p l acc, ∀ c ∈ t, c ∈ acc ∨ c ∈ l := by
  induction l generalizing acc with
  | nil =>
    intro t ht c hc
    simp only [splitAux, List.mem_singleton] at ht
    subst ht
    exact Or.inl (List.mem_reverse.mp hc)
  | cons hd tl ih =>
    intro t ht c hc
    by_cases hp : p hd
    · simp only [splitAux, if_pos hp, List.mem_cons] at ht
      rcases ht with rfl | ht
      · exact Or.inl (List.mem_reverse.mp hc)
      · rcases ih [] t ht c hc with h | h
        · cases h
        · exact Or.inr (List.mem_cons_of_mem hd h)
    · simp only [splitAux, if_neg hp] at ht
      rcases ih (hd :: acc) t ht c hc with h | h
      · rcases List.mem_cons.mp h with rfl | h
        · exact Or.inr (List.mem_cons_self c tl)
        · exact Or.inl h
      · exact Or.inr (List.mem_cons_of_mem hd h)

theorem splitOnPred_chars_mem (p : Char → Bool) (l : List Char) :
    ∀ t ∈ splitOnPred p l, ∀ c ∈ t, c ∈ l := by
  intro t ht c hc
  rcases splitAux_chars_mem p l [] t ht c hc with h | h
  · cases h
  · exact h

theorem splitAux_no_sep (p : Char → Bool) (l : List Char) (acc : List Char)
    (h : ∀ c ∈ l, p c = false) :
    splitAux p l acc = [acc.reverse ++ l] := by
  induction l generalizing acc with
  | nil => simp [splitAux]
  | cons hd tl ih =>
    have hhd : p hd = false := h hd (List.mem_cons_self hd tl)
    simp only [splitAux, hhd, Bool.false_eq_true, if_false]
    rw [ih (hd :: acc) (fun c hc => h c (List.mem_cons_of_mem hd hc))]
    simp

theorem splitOnPred_no_sep (p : Char → Bool) (l : List Char)
    (h : ∀ c ∈ l, p c = false) :
    splitOnPred p l = [l] := by
  simpa using splitAux_no_sep p l [] h

theorem dropWhile_eq_self_of_none {p : Char → Bool} {l : List Char}
    (h : ∀ c ∈ l, p c = false) : l.dropWhile p = l := by
  cases l with
  | nil => rfl
  | cons hd tl =>
    rw [List.dropWhile_cons_of_neg]
    simp [h hd (List.mem_cons_self hd tl)]

theorem trimList_eq_self {l : List Char}
    (h : ∀ c ∈ l, Char.isWhitespace c = false) : trimList l = l := by
  unfold trimList
  rw [dropWhile_eq_self_of_none h]
  rw [dropWhile_eq_self_of_none (fun c hc => h c (List.mem_reverse.mp hc))]
  exact List.reverse_reverse l

theorem trimList_eq_nil {l : List Char}
    (h : ∀ c ∈ l, Char.isWhitespace c = true) : trimList l = [] := by
  unfold trimList
  have h1 : l.dropWhile Char.isWhitespace = [] := List.dropWhile_eq_nil_iff.mpr h
  rw [h1]
  simp

/-! Helper lemmas about case folding. -/

theorem toNat_ofNat_valid (n : Nat) (h : n.isValidChar) : (Char.ofNat n).toNat = n := by
  rw [Char.ofNat, dif_pos h]
  simp [Char.ofNatAux, Char.toNat, UInt32.toNat]

theorem toLower_toLower (c : Char) : Char.toLower (Char.toLower c) = Char.toLower c := by
  unfold Char.toLower
  simp only
  by_cases h : c.toNat ≥ 65 ∧ c.toNat ≤ 90
  · rw [if_pos h]
    have hv : (c.toNat + 32).isValidChar := by
      constructor
      omega
    have ht : (Char.ofNat (c.toNat + 32)).toNat = c.toNat + 32 := toNat_ofNat_valid _ hv
    rw [if_neg]
    omega
  · rw [if_neg h, if_neg h]

theorem map_toLower_eq_self {l : List Char} (h : ∀ c ∈ l, Char.toLower c = c) :
    l.map Char.toLower = l := by
  induction l with
  | nil => rfl
  | cons hd tl ih =>
    simp only [List.map_cons, h hd (List.mem_cons_self hd tl)]
    rw [ih (fun c hc => h c (List.mem_cons_of_mem hd hc))]

/-! Helper lemmas about token expansion. -/

theorem mem_initialSegments {t s : List Char} :
    s ∈ initialSegments t ↔ s ≠ [] ∧ ∃ r, s ++ r = t := by
  unfold initialSegments
  simp only [List.mem_map, List.mem_range]
  constructor
  · rintro ⟨k, hk, rfl⟩
    refine ⟨?_, t.drop (k + 1), List.take_append_drop (k + 1) t⟩
    have : (t.take (k + 1)).length = k + 1 := List.length_take_of_le (by omega)
    intro hnil
    rw [hnil] at this
    simp at this
  · rintro ⟨hne, r, rfl⟩
    refine ⟨s.length - 1, ?_, ?_⟩
    · have : 1 ≤ s.length := List.length_pos.mpr hne
      simp only [List.length_append]
      omega
    · have h1 : s.length - 1 + 1 = s.length := by
        have : 1 ≤ s.length := List.length_pos.mpr hne
        omega
      rw [h1]
      exact List.take_left s r

theorem mem_expandAllSubstringTokens {t s : List Char} :
    s ∈ SearchUtility._expandAllSubstringTokens t ↔
      s ≠ [] ∧ ∃ l r, l ++ (s ++ r) = t := by
  unfold SearchUtility._expandAllSubstringTokens
  simp only [List.mem_flatten, List.mem_map, List.mem_range]
  constructor
  · rintro ⟨seg, ⟨i, hi, rfl⟩, hs⟩
    rcases mem_initialSegments.mp hs with ⟨hne, r, hr⟩
    refine ⟨hne, t.take i, r, ?_⟩
    rw [hr]
    exact List.take_append_drop i t
  · rintro ⟨hne, l, r, rfl⟩
    refine ⟨initialSegments ((l ++ (s ++ r)).drop l.length), ⟨l.length, ?_, rfl⟩, ?_⟩
    · have : 1 ≤ s.length := List.length_pos.mpr hne
      simp only [List.length_append]
      omega
    · rw [List.drop_left l (s ++ r)]
      exact mem_initialSegments.mpr ⟨hne, r, rfl⟩

/-! Helper lemmas about the engine. -/

theorem uids_indexDocument (s : SearchUtility) (uid : Uid) (text : List Char) :
    (s.indexDocument uid text)._uids = insertUid s._uids uid := rfl

theorem uids_runIndex_mem {s : SearchUtility} {docs : List (Uid × List Char)} {u : Uid} :
    u ∈ (runIndex s docs)._uids ↔ u ∈ s._uids ∨ u ∈ docs.map Prod.fst := by
  induction docs generalizing s with
  | nil => simp [runIndex]
  | cons d ds ih =>
    show u ∈ (runIndex (s.indexDocument d.1 d.2) ds)._uids ↔ _
    rw [ih, uids_indexDocument, mem_insertUid]
    simp only [List.map_cons, List.mem_cons]
    tauto

theorem uids_runIndex_eq_nil {s : SearchUtility} {docs : List (Uid × List Char)} :
    (runIndex s docs)._uids = [] ↔ s._uids = [] ∧ docs = [] := by
  induction docs generalizing s with
  | nil => simp [runIndex]
  | cons d ds ih =>
    show (runIndex (s.indexDocument d.1 d.2) ds)._uids = [] ↔ _
    rw [ih, uids_indexDocument]
    simp [insertUid_ne_nil]

theorem lookup_foldl_index_mono {uid u : Uid} (expand : List Char → List (List Char))
    (fts : List (List Char)) (idx : SearchIndex) {t : Token} (h : u ∈ idx.lookup t) :
    u ∈ (fts.foldl (fun i f => indexTokens i uid (expand f)) idx).lookup t := by
  induction fts generalizing idx with
  | nil => exact h
  | cons hd tl ih => exact ih _ (lookup_indexTokens_mono _ h)

theorem mem_lookup_foldl_index {uid : Uid} (expand : List Char → List (List Char))
    (fts : List (List Char)) (idx : SearchIndex) {ft et : List Char}
    (hft : ft ∈ fts) (het : et ∈ expand ft) :
    uid ∈ (fts.foldl (fun i f => indexTokens i uid (expand f)) idx).lookup et := by
  induction fts generalizing idx with
  | nil => cases hft
  | cons hd tl ih =>
    rcases List.mem_cons.mp hft with rfl | hmem
    · exact lookup_foldl_index_mono expand tl _ (mem_lookup_indexTokens het)
    · exact ih _ hmem

theorem mem_lookup_indexDocument_engine {s : SearchUtility} {uid : Uid}
    {text ft et : List Char} (hft : ft ∈ s.fieldTokensOf text)
    (het : et ∈ s._expandToken ft) :
    uid ∈ (s.indexDocument uid text)._searchIndex.lookup et :=
  mem_lookup_foldl_index (s._expandToken) (s.fieldTokensOf text) s._searchIndex hft het

theorem fieldTokensOf_chars_default {s : SearchUtility}
    (hp : s._tokenizePattern = defaultTokenizePattern) {text ft : List Char}
    (h : ft ∈ s.fieldTokensOf text) : ∀ c ∈ ft, Char.isWhitespace c = false := by
  have h1 : ft ∈ s._tokenizePattern (s._sanitize text) :=
    (List.mem_filter.mp h).1
  rw [hp] at h1
  exact splitOnPred_chars Char.isWhitespace _ ft h1

theorem fieldTokensOf_chars_lower {s : SearchUtility}
    (hp : s._tokenizePattern = defaultTokenizePattern)
    (hc : s._caseSensitive = false) {text ft : List Char}
    (h : ft ∈ s.fieldTokensOf text) : ∀ c ∈ ft, Char.toLower c = c := by
  intro c hc'
  have h1 : ft ∈ s._tokenizePattern (s._sanitize text) :=
    (List.mem_filter.mp h).1
  rw [hp] at h1
  have h2 : c ∈ s._sanitize text :=
    splitOnPred_chars_mem Char.isWhitespace _ ft h1 c hc'
  rw [SearchUtility._sanitize, hc] at h2
  simp only [Bool.false_eq_true, if_false, List.mem_map] at h2
  obtain ⟨c', _, rfl⟩ := h2
  exact toLower_toLower c'

theorem fieldTokensOf_ne_nil {s : SearchUtility} {text ft : List Char}
    (h : ft ∈ s.fieldTokensOf text) : ft ≠ [] := by
  have h2 := (List.mem_filter.mp h).2
  intro hnil
  subst hnil
  simp at h2

theorem sanitize_eq_self {s : SearchUtility} {q : List Char}
    (hnw : ∀ c ∈ q, Char.isWhitespace c = false)
    (hlow : s._caseSensitive = false → ∀ c ∈ q, Char.toLower c = c) :
    s._sanitize q = q := by
  unfold SearchUtility._sanitize
  cases hcs : s._caseSensitive with
  | true => simp [trimList_eq_self hnw]
  | false =>
    simp only [Bool.false_eq_true, if_false]
    rw [trimList_eq_self hnw]
    exact map_toLower_eq_self (hlow hcs)

theorem tokenize_single {s : SearchUtility}
    (hp : s._tokenizePattern = defaultTokenizePattern) {q : List Char} (hq : q ≠ [])
    (hnw : ∀ c ∈ q, Char.isWhitespace c = false) :
    s._tokenize q = [q] := by
  unfold SearchUtility._tokenize
  rw [hp]
  show (splitOnPred Char.isWhitespace q).filter _ = [q]
  rw [splitOnPred_no_sep Char.isWhitespace q hnw]
  have hemp : q.isEmpty = false := by simp [List.isEmpty_iff, hq]
  simp [List.filter, hemp]

theorem tokenize_all_whitespace {s : SearchUtility}
    (hp : s._tokenizePattern = defaultTokenizePattern) {q : List Char}
    (hws : ∀ c ∈ q, Char.isWhitespace c = true) :
    s._tokenize (s._sanitize q) = [] := by
  have htrim : trimList q = [] := trimList_eq_nil hws
  have hsan : s._sanitize q = [] := by
    unfold SearchUtility._sanitize
    rw [htrim]
    simp
  rw [hsan]
  unfold SearchUtility._tokenize
  rw [hp]
  show (splitOnPred Char.isWhitespace []).filter _ = []
  rw [splitOnPred_no_sep Char.isWhitespace [] (by simp)]
  simp [List.filter]

theorem search_substring_hit {s : SearchUtility} {uid : Uid} {text S ft : List Char}
    (hm : s._indexMode = IndexMode.ALL_SUBSTRINGS)
    (hp : s._tokenizePattern = defaultTokenizePattern)
    (hft : ft ∈ s.fieldTokensOf text) (hS : S ≠ [])
    (hsub : ∃ l r, l ++ (S ++ r) = ft) :
    uid ∈ (s.indexDocument uid text).search S := by
  have hchars : ∀ c ∈ S, Char.isWhitespace c = false := by
    intro c hc
    obtain ⟨l, r, rfl⟩ := hsub
    exact fieldTokensOf_chars_default hp hft c (by simp [hc])
  have hlow : s._caseSensitive = false → ∀ c ∈ S, Char.toLower c = c := by
    intro hcs c hc
    obtain ⟨l, r, rfl⟩ := hsub
    exact fieldTokensOf_chars_lower hp hcs hft c (by simp [hc])
  have hexp : S ∈ s._expandToken ft := by
    rw [SearchUtility._expandToken, hm]
    exact mem_expandAllSubstringTokens.mpr ⟨hS, hsub⟩
  have hlookup : uid ∈ (s.indexDocument uid text)._searchIndex.lookup S :=
    mem_lookup_indexDocument_engine hft hexp
  show uid ∈ SearchUtility.search _ S
  rw [SearchUtility.search, if_neg hS]
  have hsan : (s.indexDocument uid text)._sanitize S = S :=
    sanitize_eq_self hchars hlow
  have htok : (s.indexDocument uid text)._tokenize S = [S] :=
    tokenize_single hp hS hchars
  rw [hsan, htok]
  exact mem_search_cons.mpr ⟨hlookup, by simp⟩

theorem search_indexDocument_mono {s : SearchUtility} {uid u : Uid}
    {text q : List Char} (h : u ∈ s.search q) :
    u ∈ (s.indexDocument uid text).search q := by
  by_cases hq : q = []
  · subst hq
    rw [SearchUtility.search, if_pos rfl] at h ⊢
    rw [uids_indexDocument]
    exact mem_insertUid.mpr (Or.inl h)
  · rw [SearchUtility.search, if_neg hq] at h ⊢
    refine search_mono ?_ h
    intro t v hv
    exact lookup_foldl_index_mono _ _ _ hv

theorem updateUids_idem (m : List (Token × List Uid)) (token : Token) (uid : Uid) :
    updateUids (updateUids m token uid) token uid = updateUids m token uid := by
  induction m with
  | nil => simp [updateUids, insertUid]
  | cons hd rest ih =>
    obtain ⟨t₀, us⟩ := hd
    by_cases h : t₀ = token
    · subst h
      simp [updateUids, insertUid_of_mem (self_mem_insertUid us uid)]
    · simp [updateUids, h, ih]

/-! Claim theorems. -/

/-- C1 (counterexample): the claim "search(tokens) returns exactly the set of
uids present under every token" fails at the concrete index holding the
empty-string uid under both tokens "t" and "s": the uid is present under
every token of the two-token query, yet the search result is empty, because
the intersection step `if (!currentUidMap[uid]) delete uidMap[uid]` tests
the truthiness of the stored value, which is the uid itself. -/
theorem C1_counterexample :
    ("" : Uid) ∈ ((SearchIndex.empty.indexDocument "t".toList "").indexDocument
        "s".toList "").lookup "t".toList ∧
    ("" : Uid) ∈ ((SearchIndex.empty.indexDocument "t".toList "").indexDocument
        "s".toList "").lookup "s".toList ∧
    ((SearchIndex.empty.indexDocument "t".toList "").indexDocument "s".toList "").search
      ["t".toList, "s".toList] = [] := by
  decide

/-- C1 (amended): for every index state and token sequence, `search(tokens)`
returns exactly the uids present under every token of the sequence, except
that a query of two or more tokens never returns the empty-string uid; a
token absent from the index collapses the result to empty, and an empty
token sequence gives an empty result. The example instance: after indexing
uid "A" with "long road" and uid "B" with "long lane" under EXACT_WORDS,
search("long road") returns only "A" and search("long") returns both. -/
theorem C1_search_intersection :
    (∀ (idx : SearchIndex) (tokens : List Token) (uid : Uid),
      uid ∈ idx.search tokens ↔
        tokens ≠ [] ∧ (∀ tk ∈ tokens, uid ∈ idx.lookup tk) ∧
          (2 ≤ tokens.length → uid ≠ "")) ∧
    ((SearchUtility.init IndexMode.EXACT_WORDS defaultTokenizePattern false).indexDocument
        "A" "long road".toList |>.indexDocument "B" "long lane".toList).search
      "long road".toList = ["A"] ∧
    ((SearchUtility.init IndexMode.EXACT_WORDS defaultTokenizePattern false).indexDocument
        "A" "long road".toList |>.indexDocument "B" "long lane".toList).search
      "long".toList = ["A", "B"] := by
  refine ⟨fun idx tokens uid => mem_search_iff, ?_, ?_⟩ <;> decide

/-- Witness for C1: the amended characterization applied at a concrete
one-token index. -/
theorem C1_search_intersection_witness :
    ("A" : Uid) ∈ (SearchIndex.empty.indexDocument "t".toList "A").search ["t".toList] :=
  (C1_search_intersection.1 _ _ _).mpr (by decide)

/-- C2: with any configuration, searching with the empty (falsy) query on an
engine fed any sequence of indexDocument calls returns exactly the uids that
were ever passed to indexDocument — including uids indexed with empty or
whitespace-only text; the membership characterization is order-independent. -/
theorem C2_empty_query_returns_all_uids :
    ∀ (mode : IndexMode) (pattern : List Char → List (List Char)) (cs : Bool)
      (docs : List (Uid × List Char)) (u : Uid),
      u ∈ (runIndex (SearchUtility.init mode pattern cs) docs).search [] ↔
        u ∈ docs.map Prod.fst := by
  intro mode pattern cs docs u
  rw [SearchUtility.search, if_pos rfl, uids_runIndex_mem]
  simp [SearchUtility.init]

/-- Witness for C2: a uid indexed with whitespace-only text is returned by
the empty query. -/
theorem C2_empty_query_returns_all_uids_witness :
    ("A" : Uid) ∈ (runIndex
      (SearchUtility.init IndexMode.ALL_SUBSTRINGS defaultTokenizePattern false)
      [("A", "  ".toList)]).search [] :=
  (C2_empty_query_returns_all_uids _ _ _ _ _).mpr (by decide)

/-- C3: setIndexMode on an engine fed a sequence of indexDocument calls
signals the invalid-state error exactly when the sequence is non-empty
(any prior indexDocument call, whatever its text); before any indexing the
call succeeds, changing nothing but the stored index mode (which then
governs subsequent `_expandToken` dispatch). A failing call returns no new
state, so the caller's configured mode is untouched. -/
theorem C3_setIndexMode_guard :
    ∀ (mode newMode : IndexMode) (pattern : List Char → List (List Char)) (cs : Bool)
      (docs : List (Uid × List Char)),
      ((runIndex (SearchUtility.init mode pattern cs) docs).setIndexMode newMode =
          Except.error "indexMode cannot be changed once documents have been indexed" ↔
        docs ≠ []) ∧
      (docs = [] →
        (runIndex (SearchUtility.init mode pattern cs) docs).setIndexMode newMode =
          Except.ok { runIndex (SearchUtility.init mode pattern cs) docs with
            _indexMode := newMode }) ∧
      (∀ s', (runIndex (SearchUtility.init mode pattern cs) docs).setIndexMode newMode =
          Except.ok s' →
        s'._indexMode = newMode ∧
        s'._searchIndex = (runIndex (SearchUtility.init mode pattern cs) docs)._searchIndex ∧
        s'._uids = (runIndex (SearchUtility.init mode pattern cs) docs)._uids ∧
        s'._tokenizePattern =
          (runIndex (SearchUtility.init mode pattern cs) docs)._tokenizePattern ∧
        s'._caseSensitive =
          (runIndex (SearchUtility.init mode pattern cs) docs)._caseSensitive) := by
  intro mode newMode pattern cs docs
  have hnil : (runIndex (SearchUtility.init mode pattern cs) docs)._uids = [] ↔ docs = [] := by
    rw [uids_runIndex_eq_nil]
    simp [SearchUtility.init]
  refine ⟨?_, ?_, ?_⟩
  · rw [SearchUtility.setIndexMode]
    constructor
    · intro h
      by_cases hlen : (runIndex (SearchUtility.init mode pattern cs) docs)._uids.length > 0
      · intro hd
        subst hd
        rw [hnil.mpr rfl] at hlen
        simp at hlen
      · rw [if_neg hlen] at h
        cases h
    · intro hd
      rw [if_pos]
      have : (runIndex (SearchUtility.init mode pattern cs) docs)._uids ≠ [] :=
        fun h => hd (hnil.mp h)
      have := List.length_pos.mpr this
      omega
  · intro hd
    rw [SearchUtility.setIndexMode, if_neg]
    rw [hnil.mpr hd]
    simp
  · intro s' h
    rw [SearchUtility.setIndexMode] at h
    by_cases hlen : (runIndex (SearchUtility.init mode pattern cs) docs)._uids.length > 0
    · rw [if_pos hlen] at h
      cases h
    · rw [if_neg hlen] at h
      cases h
      exact ⟨rfl, rfl, rfl, rfl, rfl⟩

/-- Witness for C3: on a fresh engine (no documents indexed) the mode change
succeeds, and on an engine with one document it errors. -/
theorem C3_setIndexMode_guard_witness :
    (runIndex (SearchUtility.init IndexMode.ALL_SUBSTRINGS defaultTokenizePattern false)
        []).setIndexMode IndexMode.EXACT_WORDS =
      Except.ok { runIndex
          (SearchUtility.init IndexMode.ALL_SUBSTRINGS defaultTokenizePattern false) [] with
        _indexMode := IndexMode.EXACT_WORDS } :=
  (C3_setIndexMode_guard IndexMode.ALL_SUBSTRINGS IndexMode.EXACT_WORDS
    defaultTokenizePattern false []).2.1 rfl

/-- C4: under ALL_SUBSTRINGS the expansion of a token is exactly its
contiguous non-empty substrings (with "cat" expanding to the six pieces in
loop order), and consequently searching any contiguous non-empty substring
of a field token of an indexed document returns that document's uid. -/
theorem C4_all_substrings :
    (∀ (t sub : List Char),
      sub ∈ SearchUtility._expandAllSubstringTokens t ↔
        sub ≠ [] ∧ ∃ l r, l ++ (sub ++ r) = t) ∧
    SearchUtility._expandAllSubstringTokens "cat".toList =
      ["c".toList, "ca".toList, "cat".toList, "a".toList, "at".toList, "t".toList] ∧
    (∀ (s : SearchUtility) (uid : Uid) (text sub ft : List Char),
      s._indexMode = IndexMode.ALL_SUBSTRINGS →
      s._tokenizePattern = defaultTokenizePattern →
      ft ∈ s.fieldTokensOf text → sub ≠ [] → (∃ l r, l ++ (sub ++ r) = ft) →
      uid ∈ (s.indexDocument uid text).search sub) := by
  refine ⟨fun t sub => mem_expandAllSubstringTokens, by decide,
    fun s uid text sub ft hm hp hft hS hsub => search_substring_hit hm hp hft hS hsub⟩

/-- Witness for C4: after indexing "cat" under the default configuration,
the inner substring "at" finds the document. -/
theorem C4_all_substrings_witness :
    ("doc" : Uid) ∈ (SearchUtility.mkDefault.indexDocument "doc" "cat".toList).search
      "at".toList :=
  C4_all_substrings.2.2 SearchUtility.mkDefault "doc" "cat".toList "at".toList "cat".toList
    rfl rfl (by decide) (by decide) ⟨"c".toList, [], by decide⟩

/-- C5: the inverted index's search applied to a zero-length token sequence
is empty for every index state, even when documents are indexed — distinct
from the engine's empty-query behavior one layer up, which returns all
known identifiers (both shown on the same concrete state). -/
theorem C5_zero_tokens_empty :
    (∀ idx : SearchIndex, idx.search [] = []) ∧
    (SearchUtility.mkDefault.indexDocument "A" "word".toList).search [] = ["A"] ∧
    (SearchUtility.mkDefault.indexDocument "A" "word".toList)._searchIndex.search [] = [] := by
  exact ⟨fun idx => rfl, by decide, rfl⟩

/-- C6: state only grows. indexDocument preserves every uid in the
known-identifier set, every (token, uid) association, and every previously
returned search hit; the tokenize-pattern and case-sensitivity setters and
a successful setIndexMode leave the known-identifier set and the inverted
index untouched (search itself returns a value without mutating state in
this functional embedding, as in the source). -/
theorem C6_monotonic_growth :
    ∀ (s : SearchUtility) (uid : Uid) (text : List Char),
      (∀ u ∈ s._uids, u ∈ (s.indexDocument uid text)._uids) ∧
      (∀ (t : Token) (u : Uid), u ∈ s._searchIndex.lookup t →
        u ∈ (s.indexDocument uid text)._searchIndex.lookup t) ∧
      (∀ (q : List Char) (u : Uid), u ∈ s.search q →
        u ∈ (s.indexDocument uid text).search q) ∧
      (∀ pat : List Char → List (List Char),
        (s.setTokenizePattern pat)._uids = s._uids ∧
        (s.setTokenizePattern pat)._searchIndex = s._searchIndex) ∧
      (∀ b : Bool,
        (s.setCaseSensitive b)._uids = s._uids ∧
        (s.setCaseSensitive b)._searchIndex = s._searchIndex) ∧
      (∀ (m : IndexMode) (s' : SearchUtility), s.setIndexMode m = Except.ok s' →
        s'._uids = s._uids ∧ s'._searchIndex = s._searchIndex) := by
  intro s uid text
  refine ⟨?_, ?_, ?_, fun pat => ⟨rfl, rfl⟩, fun b => ⟨rfl, rfl⟩, ?_⟩
  · intro u hu
    rw [uids_indexDocument]
    exact mem_insertUid.mpr (Or.inl hu)
  · intro t u hu
    exact lookup_foldl_index_mono _ _ _ hu
  · intro q u hu
    exact search_indexDocument_mono hu
  · intro m s' h
    rw [SearchUtility.setIndexMode] at h
    by_cases hlen : s._uids.length > 0
    · rw [if_pos hlen] at h
      cases h
    · rw [if_neg hlen] at h
      cases h
      exact ⟨rfl, rfl⟩

/-- Witness for C6: a hit for the query "ca" survives re-indexing the same
uid with additional text. -/
theorem C6_monotonic_growth_witness :
    ("A" : Uid) ∈ ((SearchUtility.mkDefault.indexDocument "A" "cat".toList).indexDocument
      "A" "dog".toList).search "ca".toList :=
  (C6_monotonic_growth (SearchUtility.mkDefault.indexDocument "A" "cat".toList) "A"
    "dog".toList).2.2.1 "ca".toList "A" (by decide)

/-- C7: sanitization trims surrounding whitespace and, unless case-sensitive
mode is active, additionally lowercases (both equations hold for every
engine state and text, and the same `_sanitize` is applied on the indexing
and the query path); consequently indexing "Name" under the default
configuration and searching "name" returns the uid, while with
case-sensitivity enabled before indexing it does not. -/
theorem C7_sanitize_case :
    (∀ (s : SearchUtility) (text : List Char), s._caseSensitive = true →
      s._sanitize text = trimList text) ∧
    (∀ (s : SearchUtility) (text : List Char), s._caseSensitive = false →
      s._sanitize text = (trimList text).map Char.toLower) ∧
    (SearchUtility.mkDefault.indexDocument "doc" "Name".toList).search "name".toList =
      ["doc"] ∧
    ((SearchUtility.mkDefault.setCaseSensitive true).indexDocument "doc"
      "Name".toList).search "name".toList = [] := by
  refine ⟨?_, ?_, by decide, by decide⟩
  · intro s text h
    rw [SearchUtility._sanitize, h]
    simp
  · intro s text h
    rw [SearchUtility._sanitize, h]
    simp

/-- Witness for C7: the case-sensitive sanitize equation at a concrete
engine and text. -/
theorem C7_sanitize_case_witness :
    (SearchUtility.mkDefault.setCaseSensitive true)._sanitize " Ab ".toList =
      trimList " Ab ".toList :=
  C7_sanitize_case.1 (SearchUtility.mkDefault.setCaseSensitive true) " Ab ".toList rfl

/-- C8: under PREFIXES the expansion of a token of length N is exactly its
non-empty initial pieces, in increasing length 1 through N (the lengths of
the produced list are 1, 2, ..., N in order, and membership is exactly
"non-empty and extendable to the whole token"); "cat" expands to
"c", "ca", "cat", and after indexing "cat" under PREFIXES, searching "ca"
returns the uid while "at" does not. -/
theorem C8_prefix_expansion :
    (∀ (t sub : List Char),
      sub ∈ SearchUtility._expandPrefixTokens t ↔ sub ≠ [] ∧ ∃ r, sub ++ r = t) ∧
    (∀ t : List Char, (SearchUtility._expandPrefixTokens t).map List.length =
      (List.range t.length).map (fun k => k + 1)) ∧
    SearchUtility._expandPrefixTokens "cat".toList =
      ["c".toList, "ca".toList, "cat".toList] ∧
    ((SearchUtility.init IndexMode.PREFIXES defaultTokenizePattern false).indexDocument
      "doc" "cat".toList).search "ca".toList = ["doc"] ∧
    ((SearchUtility.init IndexMode.PREFIXES defaultTokenizePattern false).indexDocument
      "doc" "cat".toList).search "at".toList = [] := by
  refine ⟨fun t sub => mem_initialSegments, ?_, by decide, by decide, by decide⟩
  intro t
  unfold SearchUtility._expandPrefixTokens initialSegments
  rw [List.map_map]
  refine List.map_congr_left ?_
  intro k hk
  rw [List.mem_range] at hk
  simp only [Function.comp_apply, List.length_take]
  omega

/-- Witness for C8: membership via the characterization at a concrete token. -/
theorem C8_prefix_expansion_witness :
    "ca".toList ∈ SearchUtility._expandPrefixTokens "cat".toList :=
  (C8_prefix_expansion.1 "cat".toList "ca".toList).mpr ⟨by decide, "t".toList, by decide⟩

/-- C9: inserting the same (token, uid) pair twice leaves the inverted index
in the same state as inserting it once, so every subsequent search returns
the same result. -/
theorem C9_indexDocument_idempotent :
    ∀ (idx : SearchIndex) (token : Token) (uid : Uid),
      (idx.indexDocument token uid).indexDocument token uid =
        idx.indexDocument token uid ∧
      ∀ tokens : List Token,
        ((idx.indexDocument token uid).indexDocument token uid).search tokens =
          (idx.indexDocument token uid).search tokens := by
  intro idx token uid
  have h : (idx.indexDocument token uid).indexDocument token uid =
      idx.indexDocument token uid := by
    show SearchIndex.mk _ = SearchIndex.mk _
    rw [SearchIndex.indexDocument]
    exact congrArg SearchIndex.mk (updateUids_idem idx.tokenToUidMap token uid)
  exact ⟨h, fun tokens => by rw [h]⟩

/-- C10: a truthy query that sanitizes and tokenizes to zero tokens (for the
default tokenize pattern: a non-empty all-whitespace query) falls through to
the inverted index's zero-token path and returns the empty sequence, not the
known-identifier set — shown in contrast with the empty query on the same
indexed state. -/
theorem C10_whitespace_query_empty :
    (∀ (s : SearchUtility) (q : List Char),
      s._tokenizePattern = defaultTokenizePattern → q ≠ [] →
      (∀ c ∈ q, Char.isWhitespace c = true) →
      s.search q = []) ∧
    (SearchUtility.mkDefault.indexDocument "A" "word".toList).search " ".toList = [] ∧
    (SearchUtility.mkDefault.indexDocument "A" "word".toList).search [] = ["A"] := by
  refine ⟨?_, by decide, by decide⟩
  intro s q hp hq hws
  rw [SearchUtility.search, if_neg hq, tokenize_all_whitespace hp hws]
  rfl

/-- Witness for C10: a single-space query on an engine holding one document
returns nothing. -/
theorem C10_whitespace_query_empty_witness :
    (SearchUtility.mkDefault.indexDocument "A" "word".toList).search "\t".toList = [] :=
  C10_whitespace_query_empty.1 (SearchUtility.mkDefault.indexDocument "A" "word".toList)
    "\t".toList rfl (by decide) (by decide)

end JsWorkerSearch
